import Mathlib

/-
Verification of the HyperLogLog cardinality-estimator implementation
(src/src/lib.rs) against its natural-language specification.

Modelling conventions:
- Rust u64 / usize / u8 values are modelled as Nat; bitwise operations
  use Nat.land, Nat.shiftRight, which agree with the machine operations
  on all in-range inputs (no 64-bit operation in this code can overflow).
- Rust f64 arithmetic is modelled exactly: the alpha constants and the
  raw estimate are rational, so they live in Rat; the linear-counting
  value uses the natural logarithm and lives in Real.
- The OS randomness source used to draw the two SipHash keys is an
  injected dependency: the keys are passed to the constructor as
  arguments. The hash of a value is likewise an external input: insert
  is modelled directly on the 64-bit hash value it reeives.
-/

namespace HLLV

/- Rust enum Estimator, with the constructor names of the source. -/
inductive Estimator : Type where
  | HyperLogLog : Estimator
  | LinerCounting : Estimator
deriving DecidableEq, Repr

/- Rust struct HyperLogLog: field names follow the source. -/
structure HLL : Type where
  b : ℕ
  b_mask : ℕ
  m : ℕ
  alpha : ℚ
  registers : List ℕ
  hasher_key0 : ℕ
  hasher_key1 : ℕ
deriving DecidableEq, Repr

/- The match expression in the Ok branch of get_alpha in the source. -/
def alphaVal : ℕ → ℚ
  | 4 => 0.673
  | 5 => 0.697
  | 6 => 0.709
  | b => 0.7213 / (1 + 1.079 / ((2 : ℚ) ^ b))

/- fn get_alpha(b: u8) -> Result<f64, Box<Error>> -/
def get_alpha (b : ℕ) : Except String ℚ :=
  if b < 4 ∨ 16 < b then
    Except.error "b must be between 4 and 16"
  else
    Except.ok (alphaVal b)

/- fn count_leading_zeros(mut s: u64, max_width: u8) -> u8
   The Rust loop decrements lz and shifts s right until s is zero. -/
def count_leading_zeros (s : ℕ) (max_width : ℕ) : ℕ :=
  if h : s = 0 then max_width
  else count_leading_zeros (s >>> 1) (max_width - 1)
termination_by s
decreasing_by
  simp only [Nat.shiftRight_one]
  exact Nat.div_lt_self (Nat.pos_of_ne_zero h) one_lt_two

/- fn position_of_leftmost_one_bit(s: u64, max_width: u8) -> u8 -/
def position_of_leftmost_one_bit (s : ℕ) (max_width : ℕ) : ℕ :=
  count_leading_zeros s max_width + 1

/- fn HyperLogLog::new(b: u8) -> Result<Self, Box<Error>>
   key0 and key1 stand for the two draws from the OS random generator. -/
def HLL.new (b : ℕ) (key0 key1 : ℕ) : Except String HLL :=
  if b < 4 ∨ 16 < b then
    Except.error "b must be between 4 and 16"
  else
    let m := 1 <<< b
    (get_alpha b).map (fun alpha =>
      { b := b
        b_mask := m - 1
        m := m
        alpha := alpha
        registers := List.replicate m 0
        hasher_key0 := key0
        hasher_key1 := key1 })

/- fn HyperLogLog::insert<H: Hash>(&mut self, value: &H)
   x stands for the 64-bit SipHash value self.hash(value); the register
   is overwritten only when the branch condition of the source holds. -/
def HLL.insert (hll : HLL) (x : ℕ) : HLL :=
  let j := x &&& hll.b_mask
  let w := x >>> hll.b
  let p1 := position_of_leftmost_one_bit w (64 - hll.b)
  if hll.registers.getD j 0 < p1 then
    { hll with registers := hll.registers.set j p1 }
  else
    hll

/- fn count_zero_registers(registers: &[u8]) -> usize -/
def count_zero_registers (registers : List ℕ) : ℕ :=
  (registers.filter (fun x => x == 0)).length

/- fn raw_hyperloglog_estimate(alpha: f64, m: f64, registers: &[u8]) -> f64 -/
def raw_hyperloglog_estimate (alpha : ℚ) (m : ℚ) (registers : List ℕ) : ℚ :=
  let sum := (registers.map (fun x => (2 : ℚ) ^ (-(x : ℤ)))).sum
  alpha * m * m / sum

/- fn linear_counting_estimate(m: f64, number_of_zero_registers: f64) -> f64 -/
noncomputable def linear_counting_estimate (m : ℝ) (number_of_zero_registers : ℝ) : ℝ :=
  m * Real.log (m / number_of_zero_registers)

/- fn estimate_cardinality(hll: &HyperLogLog) -> (f64, Estimator) -/
noncomputable def estimate_cardinality (hll : HLL) : ℝ × Estimator :=
  let m_64 : ℚ := (hll.m : ℚ)
  let est := raw_hyperloglog_estimate hll.alpha m_64 hll.registers
  if est < 5 / 2 * m_64 then
    match count_zero_registers hll.registers with
    | 0 => ((est : ℝ), Estimator.HyperLogLog)
    | v => (linear_counting_estimate (m_64 : ℝ) (v : ℝ), Estimator.LinerCounting)
  else
    ((est : ℝ), Estimator.HyperLogLog)

/- fn HyperLogLog::cardinality(&self) -> f64 -/
noncomputable def HLL.cardinality (hll : HLL) : ℝ :=
  (estimate_cardinality hll).1

/- fn HyperLogLog::typical_error_rate(&self) -> f64 -/
noncomputable def HLL.typical_error_rate (hll : HLL) : ℝ :=
  1.04 / Real.sqrt (hll.m : ℝ)

/- A call through the shared borrow &self of the source: the call
   returns the result together with the (unchanged) sketch it read. -/
noncomputable def estimateCall (hll : HLL) : (ℝ × Estimator) × HLL :=
  (estimate_cardinality hll, hll)

/- States reachable from a successful constructor call by insertions. -/
inductive Reachable : HLL → Prop where
  | init (b key0 key1 : ℕ) (hll : HLL) :
      HLL.new b key0 key1 = Except.ok hll → Reachable hll
  | step (hll : HLL) (x : ℕ) :
      Reachable hll → Reachable (hll.insert x)

/- A concrete sketch used as witness input: the result of new 4 0 0. -/
def hll₄ : HLL :=
  { b := 4
    b_mask := 15
    m := 16
    alpha := 0.673
    registers := List.replicate 16 0
    hasher_key0 := 0
    hasher_key1 := 0 }

/- The estimator, worded exactly as the specification describes it:
   raw estimate, small-range threshold 2.5 * m, zero-register count v,
   and the linear-counting value m * ln(m / v). -/
noncomputable def claimedEstimate (hll : HLL) : ℝ × Estimator :=
  let m : ℚ := (hll.m : ℚ)
  let raw : ℚ := hll.alpha * m * m /
    ((hll.registers.map (fun r => (2 : ℚ) ^ (-(r : ℤ)))).sum)
  let v : ℕ := (hll.registers.filter (fun r => r == 0)).length
  if raw < 5 / 2 * m then
    if v = 0 then ((raw : ℝ), Estimator.HyperLogLog)
    else ((hll.m : ℝ) * Real.log ((hll.m : ℝ) / (v : ℝ)), Estimator.LinerCounting)
  else
    ((raw : ℝ), Estimator.HyperLogLog)

/- Well-formedness facts maintained by construction and insertion. -/
def WFinv (hll : HLL) : Prop :=
  4 ≤ hll.b ∧ hll.b ≤ 16 ∧ hll.b_mask = 2 ^ hll.b - 1 ∧
  hll.m = 2 ^ hll.b ∧ hll.registers.length = 2 ^ hll.b ∧
  ∀ v ∈ hll.registers, v ≤ (64 - hll.b) + 1

section Helpers

theorem count_leading_zeros_zero (w : ℕ) : count_leading_zeros 0 w = w := by
  rw [count_leading_zeros]
  simp

theorem count_leading_zeros_le (s w : ℕ) : count_leading_zeros s w ≤ w := by
  induction s using Nat.strong_induction_on generalizing w with
  | _ s ih =>
    rw [count_leading_zeros]
    split
    · exact le_refl w
    · next h =>
      refine le_trans (ih (s >>> 1) ?_ (w - 1)) (Nat.sub_le w 1)
      simp only [Nat.shiftRight_one]
      exact Nat.div_lt_self (Nat.pos_of_ne_zero h) one_lt_two

theorem set_getD_self (l : List ℕ) (j : ℕ) (h : j < l.length) :
    l.set j (l.getD j 0) = l := by
  apply List.ext_getElem?
  intro i
  rw [List.getElem?_set]
  split
  · next hij =>
      subst hij
      simp [List.getD_eq_getElem?_getD, List.getElem?_eq_getElem h]
  · rfl

theorem getD_set_le (l : List ℕ) (j a i : ℕ) (h : l.getD j 0 ≤ a) :
    l.getD i 0 ≤ (l.set j a).getD i 0 := by
  rw [List.getD_eq_getElem?_getD, List.getD_eq_getElem?_getD, List.getElem?_set]
  split
  · next hij =>
      subst hij
      split
      · next hlt =>
          rw [List.getD_eq_getElem?_getD, List.getElem?_eq_getElem hlt] at h
          rw [List.getElem?_eq_getElem hlt]
          simpa using h
      · next hlt =>
          rw [List.getElem?_eq_none (le_of_not_lt hlt)]
  · exact le_refl _

theorem getD_set_eq (l : List ℕ) (j a : ℕ) (h : j < l.length) :
    (l.set j a).getD j 0 = a := by
  rw [List.getD_eq_getElem?_getD, List.getElem?_set, if_pos rfl, if_pos h]
  rfl

/- HLL.new succeeds on every in-range precision, with the exact fields
   built by the source constructor. -/
theorem new_ok (b key0 key1 : ℕ) (hcon : ¬(b < 4 ∨ 16 < b)) :
    HLL.new b key0 key1 = Except.ok
      { b := b
        b_mask := 1 <<< b - 1
        m := 1 <<< b
        alpha := alphaVal b
        registers := List.replicate (1 <<< b) 0
        hasher_key0 := key0
        hasher_key1 := key1 } := by
  rw [HLL.new, if_neg hcon, get_alpha, if_neg hcon]
  rfl

theorem new_error (b key0 key1 : ℕ) (hcon : b < 4 ∨ 16 < b) :
    HLL.new b key0 key1 = Except.error "b must be between 4 and 16" := by
  rw [HLL.new, if_pos hcon]

/- Every reachable sketch satisfies the well-formedness facts. -/
theorem reachable_wfinv (hll : HLL) (h : Reachable hll) : WFinv hll := by
  induction h with
  | init b key0 key1 hll hnew =>
    by_cases hcon : b < 4 ∨ 16 < b
    · rw [new_error b key0 key1 hcon] at hnew
      exact absurd hnew (by simp)
    · rw [new_ok b key0 key1 hcon] at hnew
      injection hnew with hnew
      subst hnew
      refine ⟨?_, ?_, ?_, ?_, ?_, ?_⟩ <;> dsimp only
      · omega
      · omega
      · simp [Nat.one_shiftLeft]
      · simp [Nat.one_shiftLeft]
      · simp [Nat.one_shiftLeft]
      · intro v hv
        rw [List.eq_of_mem_replicate hv]
        exact Nat.zero_le _
  | step hll x hr ih =>
    obtain ⟨h4, h16, hmask, hm, hlen, hreg⟩ := ih
    rw [HLL.insert]
    split
    · refine ⟨h4, h16, hmask, hm, by simpa using hlen, ?_⟩
      intro v hv
      rcases List.mem_or_eq_of_mem_set hv with hmem | hval
      · exact hreg v hmem
      · rw [hval, position_of_leftmost_one_bit]
        exact Nat.add_le_add_right (count_leading_zeros_le _ _) 1
    · exact ⟨h4, h16, hmask, hm, hlen, hreg⟩

end Helpers

/-- Claim C5: the alpha lookup is a pure function on integer precision: it
returns an error for precision outside [4, 16], and otherwise returns 0.673
for precision 4, 0.697 for precision 5, 0.709 for precision 6, and
0.7213 / (1 + 1.079 / 2^precision) for every precision from 7 to 16. -/
theorem get_alpha_spec :
    (∀ b : ℕ, (∃ e, get_alpha b = Except.error e) ↔ (b < 4 ∨ 16 < b)) ∧
    get_alpha 4 = Except.ok 0.673 ∧
    get_alpha 5 = Except.ok 0.697 ∧
    get_alpha 6 = Except.ok 0.709 ∧
    (∀ b : ℕ, 7 ≤ b → b ≤ 16 →
      get_alpha b = Except.ok (0.7213 / (1 + 1.079 / (2 : ℚ) ^ b))) := by
  refine ⟨?_, rfl, rfl, rfl, ?_⟩
  · intro b
    constructor
    · rintro ⟨e, he⟩
      by_contra hcon
      rw [get_alpha, if_neg hcon] at he
      exact absurd he (by simp)
    · intro hcon
      exact ⟨_, by rw [get_alpha, if_pos hcon]⟩
  · intro b h7 h16
    have hcon : ¬(b < 4 ∨ 16 < b) := by omega
    rw [get_alpha, if_neg hcon]
    congr 1
    interval_cases b <;> rfl

/-- Witness for C5 at precision 7. -/
theorem get_alpha_spec_witness :
    (7 : ℕ) ≤ 7 ∧ (7 : ℕ) ≤ 16 ∧
    get_alpha 7 = Except.ok (0.7213 / (1 + 1.079 / (2 : ℚ) ^ 7)) :=
  ⟨by decide, by decide, get_alpha_spec.2.2.2.2 7 (by decide) (by decide)⟩

/-- Claim C4: construction fails with an error exactly when the precision is
below 4 or above 16, leaving no sketch; for every in-range precision it
succeeds with 2^p registers all zero, index mask 2^p - 1, and alpha from
the alpha lookup. The two 64-bit seed draws are injected as arguments. -/
theorem new_spec (b key0 key1 : ℕ) :
    ((∃ e, HLL.new b key0 key1 = Except.error e) ↔ (b < 4 ∨ 16 < b)) ∧
    (4 ≤ b → b ≤ 16 → ∃ hll, HLL.new b key0 key1 = Except.ok hll ∧
      hll.b = b ∧ hll.m = 2 ^ b ∧ hll.registers = List.replicate (2 ^ b) 0 ∧
      hll.b_mask = 2 ^ b - 1 ∧ get_alpha b = Except.ok hll.alpha ∧
      hll.hasher_key0 = key0 ∧ hll.hasher_key1 = key1) := by
  constructor
  · constructor
    · rintro ⟨e, he⟩
      by_contra hcon
      rw [new_ok b key0 key1 hcon] at he
      exact absurd he (by simp)
    · intro hcon
      exact ⟨_, new_error b key0 key1 hcon⟩
  · intro h4 h16
    have hcon : ¬(b < 4 ∨ 16 < b) := by omega
    refine ⟨_, new_ok b key0 key1 hcon, rfl, ?_, ?_, ?_, ?_, rfl, rfl⟩ <;>
      dsimp only <;> simp [Nat.one_shiftLeft, get_alpha, if_neg hcon]

/-- Witness for C4 at precision 4 with both seeds 0. -/
theorem new_spec_witness :
    (4 : ℕ) ≤ 4 ∧ (4 : ℕ) ≤ 16 ∧
    ∃ hll, HLL.new 4 0 0 = Except.ok hll ∧
      hll.b = 4 ∧ hll.m = 2 ^ 4 ∧ hll.registers = List.replicate (2 ^ 4) 0 ∧
      hll.b_mask = 2 ^ 4 - 1 ∧ get_alpha 4 = Except.ok hll.alpha ∧
      hll.hasher_key0 = 0 ∧ hll.hasher_key1 = 0 :=
  ⟨by decide, by decide, (new_spec 4 0 0).2 (by decide) (by decide)⟩

/-- Counterexample to C3 as stated: on the sketch built by new 4 0 0,
inserting a value whose hash is 5 gives remainder w = 5 >>> 4 = 0, and the
rank computed by the source is 61 = (64 - 4) + 1, not 64 - 4 = 60. -/
theorem rank_at_zero_cex :
    position_of_leftmost_one_bit ((5 : ℕ) >>> hll₄.b) (64 - hll₄.b) ≠
      64 - hll₄.b := by
  simp [hll₄, position_of_leftmost_one_bit, count_leading_zeros]

/-- Claim C3 (amended): for every sketch and every inserted value whose hash
remainder w = x >>> p is entirely zero, the rank computed for that value
equals (64 - p) + 1, the maximal rank. -/
theorem rank_at_zero (hll : HLL) (x : ℕ) (hw : x >>> hll.b = 0) :
    position_of_leftmost_one_bit (x >>> hll.b) (64 - hll.b) =
      (64 - hll.b) + 1 := by
  rw [hw, position_of_leftmost_one_bit, count_leading_zeros_zero]

/-- Witness for the amended C3: hash value 5 on the precision-4 sketch. -/
theorem rank_at_zero_witness :
    (5 : ℕ) >>> hll₄.b = 0 ∧
    position_of_leftmost_one_bit ((5 : ℕ) >>> hll₄.b) (64 - hll₄.b) =
      (64 - hll₄.b) + 1 :=
  ⟨by decide, rank_at_zero hll₄ 5 (by decide)⟩

/-- Claim C6: an insertion never lowers any register, so over any sequence
of insertions every register is monotonically non-decreasing. -/
theorem insert_monotone :
    (∀ (hll : HLL) (x i : ℕ),
      hll.registers.getD i 0 ≤ (hll.insert x).registers.getD i 0) ∧
    (∀ (hll : HLL) (xs : List ℕ) (i : ℕ),
      hll.registers.getD i 0 ≤ (xs.foldl HLL.insert hll).registers.getD i 0) := by
  have step : ∀ (hll : HLL) (x i : ℕ),
      hll.registers.getD i 0 ≤ (hll.insert x).registers.getD i 0 := by
    intro hll x i
    simp only [HLL.insert]
    split
    · next hlt => exact getD_set_le _ _ _ _ (le_of_lt hlt)
    · exact le_refl _
  refine ⟨step, ?_⟩
  intro hll xs
  induction xs generalizing hll with
  | nil => intro i; exact le_refl _
  | cons x xs ih =>
      intro i
      exact le_trans (step hll x i) (ih (hll.insert x) i)

/-- Claim C7: inserting the same value twice produces a state identical to
inserting it once; a fixed value always hashes to the same 64-bit value on
a fixed sketch, so the second insertion is a no-op. -/
theorem insert_idempotent (hll : HLL) (x : ℕ)
    (hlen : hll.registers.length = 2 ^ hll.b)
    (hmask : hll.b_mask = 2 ^ hll.b - 1) :
    (hll.insert x).insert x = hll.insert x := by
  have hj : x &&& hll.b_mask < hll.registers.length := by
    calc x &&& hll.b_mask ≤ hll.b_mask := Nat.and_le_right
      _ < 2 ^ hll.b := by
          rw [hmask]; exact Nat.sub_lt (Nat.two_pow_pos _) one_pos
      _ = hll.registers.length := hlen.symm
  by_cases hlt : hll.registers.getD (x &&& hll.b_mask) 0 <
      position_of_leftmost_one_bit (x >>> hll.b) (64 - hll.b)
  · have h1 : hll.insert x = { hll with
        registers := hll.registers.set (x &&& hll.b_mask)
          (position_of_leftmost_one_bit (x >>> hll.b) (64 - hll.b)) } := by
      simp only [HLL.insert]
      rw [if_pos hlt]
    rw [h1]
    simp only [HLL.insert]
    rw [getD_set_eq _ _ _ hj, if_neg (lt_irrefl _)]
  · have h1 : hll.insert x = hll := by
      simp only [HLL.insert]
      rw [if_neg hlt]
    rw [h1]
    exact h1

/-- Witness for C7 on the precision-4 sketch with hash value 5. -/
theorem insert_idempotent_witness :
    hll₄.registers.length = 2 ^ hll₄.b ∧ hll₄.b_mask = 2 ^ hll₄.b - 1 ∧
    (hll₄.insert 5).insert 5 = hll₄.insert 5 :=
  ⟨by decide, by decide, insert_idempotent hll₄ 5 (by decide) (by decide)⟩

/-- Claim C10: on every reachable sketch the register index x &&& b_mask
computed by insert is strictly below registers.length, which equals 2^p,
with b_mask = 2^p - 1, so the register access in insert is in bounds. -/
theorem insert_index_in_bounds (hll : HLL) (h : Reachable hll) (x : ℕ) :
    x &&& hll.b_mask < hll.registers.length ∧
    hll.registers.length = 2 ^ hll.b ∧ hll.b_mask = 2 ^ hll.b - 1 := by
  obtain ⟨h4, h16, hmask, hm, hlen, hreg⟩ := reachable_wfinv hll h
  refine ⟨?_, hlen, hmask⟩
  calc x &&& hll.b_mask ≤ hll.b_mask := Nat.and_le_right
    _ < 2 ^ hll.b := by
        rw [hmask]; exact Nat.sub_lt (Nat.two_pow_pos _) one_pos
    _ = hll.registers.length := hlen.symm

/-- Witness for C10: the freshly constructed precision-4 sketch and hash 5. -/
theorem insert_index_in_bounds_witness :
    (5 : ℕ) &&& hll₄.b_mask < hll₄.registers.length ∧
    hll₄.registers.length = 2 ^ hll₄.b ∧ hll₄.b_mask = 2 ^ hll₄.b - 1 :=
  insert_index_in_bounds hll₄ (Reachable.init 4 0 0 hll₄ rfl) 5

/-- Claim C8: on every reachable sketch every register value is at most 64
(so it fits in one byte), and every non-zero register value is at most
(64 - p) + 1, a leading-zero count within a window of width 64 - p plus 1. -/
theorem registers_bounded (hll : HLL) (h : Reachable hll) :
    ∀ v ∈ hll.registers, v ≤ 64 ∧ (v ≠ 0 → v ≤ (64 - hll.b) + 1) := by
  obtain ⟨h4, h16, hmask, hm, hlen, hreg⟩ := reachable_wfinv hll h
  intro v hv
  have h1 := hreg v hv
  exact ⟨by omega, fun _ => h1⟩

/-- Witness for C8: register value 0 of the freshly constructed sketch. -/
theorem registers_bounded_witness :
    (0 : ℕ) ∈ hll₄.registers ∧
    ((0 : ℕ) ≤ 64 ∧ ((0 : ℕ) ≠ 0 → (0 : ℕ) ≤ (64 - hll₄.b) + 1)) :=
  ⟨by decide, registers_bounded hll₄ (Reachable.init 4 0 0 hll₄ rfl) 0 (by decide)⟩

/-- Claim C9: estimation is deterministic and non-mutating: a call through
the shared borrow returns the sketch unchanged, a second call on the
returned state gives the identical result, and the result depends only on
the register contents together with the immutable alpha and m fields. -/
theorem estimate_pure (hll : HLL) :
    (estimateCall hll).2 = hll ∧
    (estimateCall ((estimateCall hll).2)).1 = (estimateCall hll).1 ∧
    ∀ hll2 : HLL, hll.registers = hll2.registers → hll.alpha = hll2.alpha →
      hll.m = hll2.m → estimate_cardinality hll = estimate_cardinality hll2 := by
  refine ⟨rfl, rfl, ?_⟩
  intro hll2 hr ha hm
  simp only [estimate_cardinality, hr, ha, hm]

/-- Witness for C9 on the precision-4 sketch. -/
theorem estimate_pure_witness :
    (estimateCall hll₄).2 = hll₄ ∧
    estimate_cardinality hll₄ = estimate_cardinality hll₄ :=
  ⟨(estimate_pure hll₄).1, (estimate_pure hll₄).2.2 hll₄ rfl rfl rfl⟩

/-- Claim C1: for every sketch with precision p in [4, 16] and m = 2^p
registers, estimate computes raw = alpha * m^2 / sum of 2^(-register); when
raw < 2.5 * m it counts the zero registers v and returns (raw, HyperLogLog)
for v = 0 and (m * ln(m / v), LinearCounting) for v > 0; otherwise it
returns (raw, HyperLogLog). -/
theorem estimate_matches_claim (hll : HLL) (h4 : 4 ≤ hll.b) (h16 : hll.b ≤ 16)
    (hm : hll.m = 2 ^ hll.b) :
    estimate_cardinality hll = claimedEstimate hll := by
  simp only [estimate_cardinality, claimedEstimate, raw_hyperloglog_estimate,
    count_zero_registers, linear_counting_estimate]
  cases hv : (hll.registers.filter (fun r => r == 0)).length with
  | zero => simp [hv]
  | succ n => simp [hv, Rat.cast_natCast]

/-- Witness for C1: the freshly constructed precision-4 sketch. -/
theorem estimate_matches_claim_witness :
    4 ≤ hll₄.b ∧ hll₄.b ≤ 16 ∧ hll₄.m = 2 ^ hll₄.b ∧
    estimate_cardinality hll₄ = claimedEstimate hll₄ :=
  ⟨by decide, by decide, by decide,
    estimate_matches_claim hll₄ (by decide) (by decide) (by decide)⟩

/-- Claim C2: insert takes the 64-bit hash x, index j = x &&& b_mask, the
remainder w = x >>> p, rank = (leading-zero count of w in a window of width
64 - p) + 1, and replaces registers[j] by max(registers[j], rank), leaving
every other field and register unchanged; insert is a total function. -/
theorem insert_spec (hll : HLL) (x : ℕ)
    (hj : x &&& hll.b_mask < hll.registers.length) :
    hll.insert x =
      { hll with
          registers := hll.registers.set (x &&& hll.b_mask)
            (max (hll.registers.getD (x &&& hll.b_mask) 0)
              (count_leading_zeros (x >>> hll.b) (64 - hll.b) + 1)) } := by
  simp only [HLL.insert, position_of_leftmost_one_bit]
  split
  · next hlt =>
      rw [max_eq_right (le_of_lt hlt)]
  · next hlt =>
      rw [max_eq_left (not_lt.mp hlt), set_getD_self _ _ hj]

/-- Witness for C2: the precision-4 sketch with hash value 5. -/
theorem insert_spec_witness :
    (5 : ℕ) &&& hll₄.b_mask < hll₄.registers.length ∧
    hll₄.insert 5 =
      { hll₄ with
          registers := hll₄.registers.set ((5 : ℕ) &&& hll₄.b_mask)
            (max (hll₄.registers.getD ((5 : ℕ) &&& hll₄.b_mask) 0)
              (count_leading_zeros ((5 : ℕ) >>> hll₄.b) (64 - hll₄.b) + 1)) } :=
  ⟨by decide, insert_spec hll₄ 5 (by decide)⟩

end HLLV
